import Mathlib

/-!
Verification of the fanout one-to-many broadcast buffer (fanout.c).

The driver keeps, per device (channel), a circular byte buffer `buf` of size
`buffersize` (called `B` below), a raw write index `indx`, and a 64-bit
monotone counter `count` of all bytes ever written.  Every open file handle
carries its own cursor `f_pos` (called `offset` below), set to `count` at open
time.  We embed the byte buffer as a function `Nat → Nat` (only indices below
`B` are ever used), stream positions and lengths as `Nat`, and the signed
`loff_t` arithmetic of the overrun check as explicit `Int` subtraction.
Blocking (`wait_event_interruptible`) is modelled by a `wouldBlock` outcome:
a sequential trace retries the read later; a pending cancellation signal is
modelled by the boolean `sig` argument, mirroring the `-ERESTARTSYS` returns
of `down_interruptible` and `wait_event_interruptible`.
-/

namespace Fanout

/-- One fanout device (`struct fo`): circular buffer contents, the raw write
index `indx`, and the total number `count` of bytes ever received. -/
structure Fo where
  buf : Nat → Nat
  indx : Nat
  count : Nat

/-- Outcome of `fanout_read`: `-ERESTARTSYS` (interrupted), still blocked in
the wait loop, `-EPIPE` (overrun), or success returning `ret` bytes. -/
inductive ReadResult where
  | interrupted
  | wouldBlock
  | overrun
  | ok (ret : Nat)
  deriving DecidableEq

/-- The copy loop of `fanout_read` (fanout.c lines 332-350), fuelled so that
it is structurally recursive.  Each iteration computes
`cpstrt = indx - (count - offset)` in signed arithmetic, adjusts a negative
start by `+ B`, copies `cpcnt` bytes from that start, and advances `offset`.
It returns the list of copied segments `(start, len)` together with the final
`offset`.  One unit of fuel is spent per iteration; since every iteration
copies at least one byte, fuel `xfer` always suffices. -/
def readLoopF (B indx count : Nat) : Nat → Nat → Nat → List (Nat × Nat) × Nat
  | 0, offset, _ => ([], offset)
  | fuel + 1, offset, xfer =>
    if xfer = 0 then ([], offset)
    else
      let cpstrt : Int := (indx : Int) - ((count : Int) - (offset : Int))
      if cpstrt < 0 then
        let cpcnt : Nat := min (-cpstrt).toNat xfer
        let rest := readLoopF B indx count fuel (offset + cpcnt) (xfer - cpcnt)
        (((cpstrt + (B : Int)).toNat, cpcnt) :: rest.1, rest.2)
      else
        let rest := readLoopF B indx count fuel (offset + xfer) (xfer - xfer)
        ((cpstrt.toNat, xfer) :: rest.1, rest.2)

/-- The copy loop of `fanout_read`, started with enough fuel. -/
def readLoop (B indx count offset xfer : Nat) : List (Nat × Nat) × Nat :=
  readLoopF B indx count xfer offset xfer

/-- Bytes delivered to user space by a list of copied segments: each segment
`(start, len)` contributes `buf start, …, buf (start + len - 1)`. -/
def segBytes (buf : Nat → Nat) : List (Nat × Nat) → List Nat
  | [] => []
  | sg :: rest => ((List.range sg.2).map fun i => buf (sg.1 + i)) ++ segBytes buf rest

/-- `fanout_read` (fanout.c lines 291-355).  `sig` models a pending signal
making `down_interruptible` / `wait_event_interruptible` return nonzero; in
the C code both paths return `-ERESTARTSYS` before any state is touched.
Then the wait loop blocks while `offset = count`; then the overrun check
fails with `-EPIPE` when the signed backlog `count - offset` exceeds `B` or
is negative; otherwise the loop copies `min req (count - offset)` bytes and
advances the cursor.  The result is the returned status, the bytes copied to
the user, and the final value of the cursor `offset`. -/
def fanout_read (B : Nat) (dev : Fo) (offset req : Nat) (sig : Bool) :
    ReadResult × List Nat × Nat :=
  if sig then (ReadResult.interrupted, [], offset)
  else if offset = dev.count then (ReadResult.wouldBlock, [], offset)
  else if (B : Int) < (dev.count : Int) - (offset : Int) ∨
      (dev.count : Int) - (offset : Int) < 0 then
    (ReadResult.overrun, [], offset)
  else
    (ReadResult.ok (min req (dev.count - offset)),
     segBytes dev.buf (readLoop B dev.indx dev.count offset (min req (dev.count - offset))).1,
     (readLoop B dev.indx dev.count offset (min req (dev.count - offset))).2)

/-- The copy loop of `fanout_write` (fanout.c lines 387-404), fuelled so that
it is structurally recursive.  Each iteration copies
`cpcnt = min (B - indx) xfer` bytes of `data` into the buffer starting at
`indx`, wraps `indx` to `0` when it reaches `B`, and drops the copied prefix
of `data`.  While `indx < B` every iteration copies at least one byte, so
fuel `xfer` always suffices. -/
def writeLoopF (B : Nat) : Nat → (Nat → Nat) → Nat → List Nat → Nat → (Nat → Nat) × Nat
  | 0, buf, indx, _, _ => (buf, indx)
  | fuel + 1, buf, indx, data, xfer =>
    if xfer = 0 then (buf, indx)
    else
      let cpcnt := min (B - indx) xfer
      let buf2 : Nat → Nat := fun k =>
        if indx ≤ k ∧ k < indx + cpcnt then data.getD (k - indx) 0 else buf k
      let indx2 := if indx + cpcnt = B then 0 else indx + cpcnt
      writeLoopF B fuel buf2 indx2 (data.drop cpcnt) (xfer - cpcnt)

/-- `fanout_write` (fanout.c lines 358-413): accepts
`ret = min data.length (B / 4)` bytes, copies them into the circular buffer
via the wrapped copy loop, and advances `count` by `ret`.  Returns the new
device state and `ret`.  (The C code also advances the writer's own unused
`f_pos` by `ret`; no other code reads it, so it is not modelled.) -/
def fanout_write (B : Nat) (dev : Fo) (data : List Nat) : Fo × Nat :=
  (⟨(writeLoopF B (min data.length (B / 4)) dev.buf dev.indx data (min data.length (B / 4))).1,
    (writeLoopF B (min data.length (B / 4)) dev.buf dev.indx data (min data.length (B / 4))).2,
    dev.count + min data.length (B / 4)⟩,
   min data.length (B / 4))

/-- Poll bit `POLLIN`. -/
def POLLIN : Nat := 0x001

/-- Poll bit `POLLOUT`. -/
def POLLOUT : Nat := 0x004

/-- Poll bit `POLLRDNORM`. -/
def POLLRDNORM : Nat := 0x040

/-- Poll bit `POLLWRNORM`. -/
def POLLWRNORM : Nat := 0x100

/-- `fanout_poll` (fanout.c lines 415-432): `ready_mask` starts as
`POLLOUT | POLLWRNORM`, and is reassigned (not or-ed) to
`POLLIN | POLLRDNORM` when `f_pos ≠ count`. -/
def fanout_poll (f_pos count : Nat) : Nat :=
  if f_pos ≠ count then POLLIN ||| POLLRDNORM else POLLOUT ||| POLLWRNORM

/-- Device state as seen by `fanout_open`: the buffer pointer may still be
`NULL` (`none`) before the first open. -/
structure FoDev where
  buf : Option (Nat → Nat)
  indx : Nat
  count : Nat

/-- Outcome of `fanout_open`: `-ERESTARTSYS`, `-ENOMEM`, or success carrying
the initial `f_pos` of the new file handle. -/
inductive OpenResult where
  | interrupted
  | enomem
  | ok (f_pos : Nat)

/-- `fanout_open` (fanout.c lines 248-278).  `sig` models
`down_interruptible` being interrupted; `allocOk` models whether `kmalloc`
succeeds, with `g` the (arbitrary) contents of the freshly allocated buffer.
If the device has no buffer yet and allocation fails the open returns
`-ENOMEM` with the device untouched; otherwise the handle starts with
`f_pos = count`. -/
def fanout_open (dev : FoDev) (sig : Bool) (allocOk : Bool) (g : Nat → Nat) :
    OpenResult × FoDev :=
  if sig then (OpenResult.interrupted, dev)
  else
    match dev.buf with
    | none =>
      if allocOk then (OpenResult.ok dev.count, ⟨some g, dev.indx, dev.count⟩)
      else (OpenResult.enomem, dev)
    | some _ => (OpenResult.ok dev.count, dev)

/-- Per-device initialisation in `fanout_init_module` (fanout.c lines
140-152): `indx = 0`, `count = 0`; the buffer is allocated later (at first
open) with arbitrary contents `g`. -/
def initFo (g : Nat → Nat) : Fo := ⟨g, 0, 0⟩

/-! ### Helper lemmas -/

lemma readLoopF_zero (B indx count fuel offset : Nat) :
    readLoopF B indx count fuel offset 0 = ([], offset) := by
  cases fuel <;> simp [readLoopF]

lemma writeLoopF_succ (B f : Nat) (buf : Nat → Nat) (indx : Nat) (data : List Nat)
    (xfer : Nat) (hx : xfer ≠ 0) :
    writeLoopF B (f + 1) buf indx data xfer =
      writeLoopF B f
        (fun k => if indx ≤ k ∧ k < indx + min (B - indx) xfer then
            data.getD (k - indx) 0 else buf k)
        (if indx + min (B - indx) xfer = B then 0 else indx + min (B - indx) xfer)
        (data.drop (min (B - indx) xfer)) (xfer - min (B - indx) xfer) := by
  simp [writeLoopF, hx]

lemma add_mod_ne (B a i j : Nat) (hij : i < j) (hjB : j < B) :
    (a + i) % B ≠ (a + j) % B := by
  intro h
  have h2 : i ≡ j [MOD B] := Nat.ModEq.add_left_cancel' a h
  have h3 : B ∣ j - i := (Nat.modEq_iff_dvd' (Nat.le_of_lt hij)).mp h2
  have h4 : B ≤ j - i := Nat.le_of_dvd (by omega) h3
  omega

lemma getD_drop_add (l : List Nat) (n m : Nat) (h : n + m < l.length) :
    (l.drop n).getD m 0 = l.getD (n + m) 0 := by
  have hm : m < (l.drop n).length := by simp; omega
  rw [List.getD_eq_getElem _ 0 hm, List.getD_eq_getElem _ 0 h]
  simp [List.getElem_drop]

lemma getD_take_lt (l : List Nat) (n m : Nat) (h1 : m < n) (h2 : m < l.length) :
    (l.take n).getD m 0 = l.getD m 0 := by
  have hm : m < (l.take n).length := by simp; omega
  rw [List.getD_eq_getElem _ 0 hm, List.getD_eq_getElem _ 0 h2]
  simp [List.getElem_take]

/-- Characterisation of the write copy loop: the final index is
`(indx + xfer) % B`, the `xfer` copied bytes land at `(indx + i) % B`, and
every other cell of the buffer is untouched. -/
lemma writeLoopF_spec (B : Nat) (fuel : Nat) :
    ∀ (buf : Nat → Nat) (indx : Nat) (data : List Nat) (xfer : Nat),
      indx < B → xfer ≤ fuel → xfer ≤ data.length → xfer ≤ B →
      (writeLoopF B fuel buf indx data xfer).2 = (indx + xfer) % B ∧
      (∀ i, i < xfer →
        (writeLoopF B fuel buf indx data xfer).1 ((indx + i) % B) = data.getD i 0) ∧
      (∀ k, (∀ i, i < xfer → k ≠ (indx + i) % B) →
        (writeLoopF B fuel buf indx data xfer).1 k = buf k) := by
  induction fuel with
  | zero =>
    intro buf indx data xfer hindx hfuel _ _
    have hx : xfer = 0 := Nat.le_zero.mp hfuel
    subst hx
    exact ⟨by simp [writeLoopF, Nat.mod_eq_of_lt hindx],
      fun i hi => by omega, fun k _ => by simp [writeLoopF]⟩
  | succ f ih =>
    intro buf indx data xfer hindx hfuel hdata hB
    by_cases hx : xfer = 0
    · subst hx
      exact ⟨by simp [writeLoopF, Nat.mod_eq_of_lt hindx],
        fun i hi => by omega, fun k _ => by simp [writeLoopF]⟩
    rw [writeLoopF_succ B f buf indx data xfer hx]
    set c := min (B - indx) xfer with hc
    have hc1 : 1 ≤ c := by omega
    have hcx : c ≤ xfer := by omega
    have hcB : indx + c ≤ B := by omega
    set buf2 : Nat → Nat := fun k =>
      if indx ≤ k ∧ k < indx + c then data.getD (k - indx) 0 else buf k with hbuf2
    set indx2 := if indx + c = B then 0 else indx + c with hindx2
    have hindx2B : indx2 < B := by
      rw [hindx2]; split <;> omega
    have hindx2mod : indx2 = (indx + c) % B := by
      rw [hindx2]; split
      · simp [*]
      · exact (Nat.mod_eq_of_lt (by omega)).symm
    have ihh := ih buf2 indx2 (data.drop c) (xfer - c) hindx2B (by omega)
      (by simp; omega) (by omega)
    have hmod : ∀ m : Nat, (indx2 + m) % B = (indx + (c + m)) % B := by
      intro m
      rw [hindx2mod, Nat.mod_add_mod]
      congr 1
      omega
    refine ⟨?_, ?_, ?_⟩
    · rw [ihh.1, hmod]
      congr 1
      omega
    · intro i hi
      by_cases hic : i < c
      · -- byte written by this iteration; untouched by the recursive call
        have hps : (indx + i) % B = indx + i := Nat.mod_eq_of_lt (by omega)
        rw [hps]
        have huntouched := ihh.2.2 (indx + i) ?_
        · rw [huntouched, hbuf2]
          simp only [hps]
          have : indx ≤ indx + i ∧ indx + i < indx + c := by omega
          simp only [if_pos this]
          congr 1
          omega
        · intro i2 hi2
          rw [hmod]
          have := add_mod_ne B indx i (c + i2) (by omega) (by omega)
          rw [hps] at this
          exact this
      · -- byte written by the recursive call
        have h1 : (indx + i) % B = (indx2 + (i - c)) % B := by
          rw [hmod]; congr 1; omega
        rw [h1, ihh.2.1 (i - c) (by omega), getD_drop_add data c (i - c) (by omega)]
        congr 1
        omega
    · intro k hk
      have h1 := ihh.2.2 k ?_
      · rw [h1, hbuf2]
        have : ¬(indx ≤ k ∧ k < indx + c) := by
          intro hkin
          have hkmod : k = (indx + (k - indx)) % B := by
            rw [Nat.mod_eq_of_lt (by omega)]; omega
          exact hk (k - indx) (by omega) hkmod
        simp only [if_neg this]
      · intro i2 hi2
        rw [hmod]
        exact hk (c + i2) (by omega)

/-! ### Read-loop lemmas -/

/-- Unfolding of one read-loop iteration when `cpstrt` is negative (the copy
window starts before the physical write index and is lifted by `+ B`). -/
lemma readLoopF_succ_lt (B indx count f offset xfer : Nat) (hx : xfer ≠ 0)
    (hoff : offset ≤ count) (hlt : indx < count - offset) :
    readLoopF B indx count (f + 1) offset xfer =
      ((B + indx - (count - offset), min (count - offset - indx) xfer) ::
        (readLoopF B indx count f (offset + min (count - offset - indx) xfer)
          (xfer - min (count - offset - indx) xfer)).1,
       (readLoopF B indx count f (offset + min (count - offset - indx) xfer)
          (xfer - min (count - offset - indx) xfer)).2) := by
  have hneg : (indx : Int) - ((count : Int) - (offset : Int)) < 0 := by omega
  have e1 : (-((indx : Int) - ((count : Int) - (offset : Int)))).toNat =
      count - offset - indx := by omega
  have e2 : ((indx : Int) - ((count : Int) - (offset : Int)) + (B : Int)).toNat =
      B + indx - (count - offset) := by omega
  simp only [readLoopF, if_neg hx, if_pos hneg, e1, e2]

/-- Unfolding of one read-loop iteration when `cpstrt` is non-negative: the
whole remaining window is copied in one contiguous segment. -/
lemma readLoopF_succ_ge (B indx count f offset xfer : Nat) (hx : xfer ≠ 0)
    (hoff : offset ≤ count) (hge : count - offset ≤ indx) :
    readLoopF B indx count (f + 1) offset xfer =
      ((indx - (count - offset), xfer) ::
        (readLoopF B indx count f (offset + xfer) (xfer - xfer)).1,
       (readLoopF B indx count f (offset + xfer) (xfer - xfer)).2) := by
  have hneg : ¬((indx : Int) - ((count : Int) - (offset : Int)) < 0) := by omega
  have e1 : ((indx : Int) - ((count : Int) - (offset : Int))).toNat =
      indx - (count - offset) := by omega
  simp only [readLoopF, if_neg hx, if_neg hneg, e1]

/-- When the whole window behind the cursor sits below the write index, the
loop finishes in a single contiguous segment. -/
lemma readLoopF_ge (B indx count fuel offset xfer : Nat) (hfuel : xfer ≤ fuel)
    (hoff : offset ≤ count) (hge : count - offset ≤ indx) :
    readLoopF B indx count fuel offset xfer =
      (if xfer = 0 then [] else [(indx - (count - offset), xfer)], offset + xfer) := by
  by_cases hx : xfer = 0
  · subst hx
    simp [readLoopF_zero]
  · cases fuel with
    | zero => omega
    | succ f =>
      rw [readLoopF_succ_ge B indx count f offset xfer hx hoff hge]
      simp [Nat.sub_self, readLoopF_zero, if_neg hx]

/-- Physical position of the stream byte at `offset + i`, case where the copy
start is lifted by `+ B` (the window wraps around the end of the buffer). -/
lemma pos_mod_lt (B count offset i : Nat) (hB : 0 < B) (hoff : offset ≤ count)
    (hwin : count - offset ≤ B) (hlt : count % B < count - offset)
    (hi : i < count - offset - count % B) :
    (offset + i) % B = B + count % B - (count - offset) + i := by
  have hr : count % B < B := Nat.mod_lt count hB
  have h1 : (B + count % B - (count - offset) + i) + (count - offset) =
      B + count % B + i := by omega
  have h2 : (offset + i) + (count - offset) = count + i := by omega
  have h3 : B + count % B + i ≡ count + i [MOD B] := by
    have hb0 : B % B = 0 % B := by simp
    have : B + count % B ≡ count [MOD B] := by
      calc B + count % B ≡ 0 + count % B [MOD B] := Nat.ModEq.add_right _ hb0
        _ ≡ count [MOD B] := by simpa using Nat.mod_modEq count B
    simpa using Nat.ModEq.add_right i this
  have h4 : (B + count % B - (count - offset) + i) + (count - offset) ≡
      (offset + i) + (count - offset) [MOD B] := by
    rw [h1, h2]; exact h3
  have h5 : B + count % B - (count - offset) + i ≡ offset + i [MOD B] :=
    Nat.ModEq.add_right_cancel rfl h4
  have h6 : B + count % B - (count - offset) + i < B := by omega
  calc (offset + i) % B = (B + count % B - (count - offset) + i) % B := h5.symm
    _ = B + count % B - (count - offset) + i := Nat.mod_eq_of_lt h6

/-- Physical position of the stream byte at `offset + i`, case where the copy
window does not wrap. -/
lemma pos_mod_ge (B count offset i : Nat) (hB : 0 < B) (hoff : offset ≤ count)
    (hge : count - offset ≤ count % B) (hi : i < count - offset) :
    (offset + i) % B = count % B - (count - offset) + i := by
  have hr : count % B < B := Nat.mod_lt count hB
  have h1 : (count % B - (count - offset) + i) + (count - offset) =
      count % B + i := by omega
  have h2 : (offset + i) + (count - offset) = count + i := by omega
  have h3 : count % B + i ≡ count + i [MOD B] :=
    Nat.ModEq.add_right i (Nat.mod_modEq count B)
  have h4 : (count % B - (count - offset) + i) + (count - offset) ≡
      (offset + i) + (count - offset) [MOD B] := by
    rw [h1, h2]; exact h3
  have h5 : count % B - (count - offset) + i ≡ offset + i [MOD B] :=
    Nat.ModEq.add_right_cancel rfl h4
  have h6 : count % B - (count - offset) + i < B := by omega
  calc (offset + i) % B = (count % B - (count - offset) + i) % B := h5.symm
    _ = count % B - (count - offset) + i := Nat.mod_eq_of_lt h6

/-- Memory safety of the read copy loop: under the validated window
`0 ≤ count - offset ≤ B` it produces at most two segments, every segment is
non-empty and contained in `[0, B)`, the segment lengths sum to `xfer`, and
the cursor advances by exactly `xfer`. -/
lemma readLoopF_segs (B indx count fuel offset xfer : Nat) (hfuel : xfer ≤ fuel)
    (hindx : indx < B) (hoff : offset ≤ count) (hwin : count - offset ≤ B)
    (hxfer : xfer ≤ count - offset) :
    (readLoopF B indx count fuel offset xfer).2 = offset + xfer ∧
    (readLoopF B indx count fuel offset xfer).1.length ≤ 2 ∧
    (∀ sg ∈ (readLoopF B indx count fuel offset xfer).1, 0 < sg.2 ∧ sg.1 + sg.2 ≤ B) ∧
    ((readLoopF B indx count fuel offset xfer).1.map (fun sg => sg.2)).sum = xfer := by
  by_cases hx : xfer = 0
  · subst hx
    simp [readLoopF_zero]
  by_cases hge : count - offset ≤ indx
  · rw [readLoopF_ge B indx count fuel offset xfer hfuel hoff hge, if_neg hx]
    refine ⟨rfl, by simp, ?_, by simp⟩
    intro sg hsg
    simp only [List.mem_singleton] at hsg
    subst hsg
    constructor
    · omega
    · simp only
      omega
  · push_neg at hge
    cases fuel with
    | zero => omega
    | succ f =>
      rw [readLoopF_succ_lt B indx count f offset xfer hx hoff hge]
      by_cases hcx : xfer ≤ count - offset - indx
      · rw [Nat.min_eq_right hcx]
        have hrest : readLoopF B indx count f (offset + xfer) (xfer - xfer) =
            ([], offset + xfer) := by
          rw [Nat.sub_self, readLoopF_zero]
        rw [hrest]
        refine ⟨rfl, by simp, ?_, by simp⟩
        intro sg hsg
        simp only [List.mem_singleton] at hsg
        subst hsg
        constructor
        · omega
        · simp only
          omega
      · push_neg at hcx
        have hmin : min (count - offset - indx) xfer = count - offset - indx :=
          Nat.min_eq_left (by omega)
        rw [hmin]
        have hoff2 : count - (offset + (count - offset - indx)) = indx := by omega
        have hrest := readLoopF_ge B indx count f (offset + (count - offset - indx))
          (xfer - (count - offset - indx)) (by omega) (by omega) (by omega)
        rw [hoff2] at hrest
        rw [hrest, if_neg (by omega : ¬(xfer - (count - offset - indx) = 0))]
        have hsub : indx - indx = 0 := Nat.sub_self indx
        rw [hsub]
        refine ⟨by simp only; omega, by simp, ?_, by simp; omega⟩
        intro sg hsg
        simp only [List.mem_cons, List.not_mem_nil, or_false] at hsg
        rcases hsg with h | h
        · subst h
          refine ⟨by simp only; omega, by simp only; omega⟩
        · subst h
          refine ⟨by simp only; omega, by simp only; omega⟩

/-- Content correctness of the read copy loop: when `indx = count % B`, the
bytes it copies out are exactly the buffer cells `(offset + i) % B` for
`i < xfer`, and the cursor advances by exactly `xfer`. -/
lemma readLoopF_bytes (B indx count : Nat) (buf : Nat → Nat) (hB : 0 < B)
    (hindx : indx = count % B) :
    ∀ fuel offset xfer, xfer ≤ fuel → offset ≤ count → count - offset ≤ B →
      xfer ≤ count - offset →
      segBytes buf (readLoopF B indx count fuel offset xfer).1 =
        (List.range xfer).map (fun i => buf ((offset + i) % B)) ∧
      (readLoopF B indx count fuel offset xfer).2 = offset + xfer := by
  intro fuel
  induction fuel with
  | zero =>
    intro offset xfer hfuel _ _ _
    have hx : xfer = 0 := Nat.le_zero.mp hfuel
    subst hx
    simp [readLoopF_zero, segBytes]
  | succ f ih =>
    intro offset xfer hfuel hoff hwin hxfer
    by_cases hx : xfer = 0
    · subst hx
      simp [readLoopF_zero, segBytes]
    by_cases hge : count - offset ≤ indx
    · rw [readLoopF_ge B indx count (f + 1) offset xfer hfuel hoff hge, if_neg hx]
      constructor
      · simp only [segBytes, List.append_nil]
        apply List.map_congr_left
        intro i hi
        simp only [List.mem_range] at hi
        show buf (indx - (count - offset) + i) = buf ((offset + i) % B)
        rw [pos_mod_ge B count offset i hB hoff (by omega) (by omega), hindx]
      · rfl
    · push_neg at hge
      rw [readLoopF_succ_lt B indx count f offset xfer hx hoff hge]
      set c := min (count - offset - indx) xfer with hc
      have hc1 : 1 ≤ c := by omega
      have hcx : c ≤ xfer := by omega
      have ihh := ih (offset + c) (xfer - c) (by omega) (by omega) (by omega) (by omega)
      have hranges : (List.range xfer).map (fun i => buf ((offset + i) % B)) =
          (List.range c).map (fun i => buf ((offset + i) % B)) ++
          (List.range (xfer - c)).map (fun i => buf ((offset + c + i) % B)) := by
        conv_lhs => rw [show xfer = c + (xfer - c) from by omega]
        rw [List.range_add, List.map_append, List.map_map]
        congr 1
        apply List.map_congr_left
        intro i hi
        show buf ((offset + (c + i)) % B) = buf ((offset + c + i) % B)
        rw [Nat.add_assoc offset c i]
      constructor
      · simp only [segBytes]
        rw [ihh.1, hranges]
        congr 1
        apply List.map_congr_left
        intro i hi
        simp only [List.mem_range] at hi
        show buf (B + indx - (count - offset) + i) = buf ((offset + i) % B)
        rw [pos_mod_lt B count offset i hB hoff hwin (by omega) (by omega), hindx]
      · simp only [ihh.2]
        omega

/-! ### The abstract stream invariant -/

/-- The device represents the abstract byte stream `stream`: `count` is the
stream length, the write index is `count % B`, and every stream byte still
inside the retention window of the last `B` bytes sits in the buffer cell
`j % B`. -/
def bufMatches (B : Nat) (dev : Fo) (stream : List Nat) : Prop :=
  dev.count = stream.length ∧ dev.indx = dev.count % B ∧
  ∀ j, j < stream.length → stream.length ≤ j + B → dev.buf (j % B) = stream.getD j 0

instance (B : Nat) (dev : Fo) (stream : List Nat) :
    Decidable (bufMatches B dev stream) := by
  unfold bufMatches
  exact inferInstance

/-- An append preserves the stream invariant: the accepted prefix of `data`
is appended to the abstract stream. -/
lemma fanout_write_matches (B : Nat) (dev : Fo) (stream data : List Nat)
    (hB : 0 < B) (hm : bufMatches B dev stream) :
    bufMatches B (fanout_write B dev data).1
      (stream ++ data.take (min data.length (B / 4))) := by
  obtain ⟨hcount, hindx, hbuf⟩ := hm
  set n := min data.length (B / 4) with hn
  have hnd : n ≤ data.length := by omega
  have hnB : n ≤ B := le_trans (by omega) (Nat.div_le_self B 4)
  have hindxB : dev.indx < B := by rw [hindx]; exact Nat.mod_lt _ hB
  have hspec := writeLoopF_spec B n dev.buf dev.indx data n hindxB le_rfl hnd hnB
  refine ⟨?_, ?_, ?_⟩
  · show dev.count + n = (stream ++ data.take n).length
    rw [List.length_append, List.length_take, hcount]
    omega
  · show (writeLoopF B n dev.buf dev.indx data n).2 = (dev.count + n) % B
    rw [hspec.1, hindx, Nat.mod_add_mod]
  · intro j hj hjB
    show (writeLoopF B n dev.buf dev.indx data n).1 (j % B) =
      (stream ++ data.take n).getD j 0
    have hlen : (stream ++ data.take n).length = stream.length + n := by
      simp [List.length_take]
      omega
    rw [hlen] at hj hjB
    by_cases hjold : j < stream.length
    · -- an old byte still in the window: its cell is untouched
      have huntouched : (writeLoopF B n dev.buf dev.indx data n).1 (j % B) =
          dev.buf (j % B) := by
        apply hspec.2.2
        intro i hi hcontra
        have h1 : (dev.indx + i) % B = (dev.count + i) % B := by
          rw [hindx, Nat.mod_add_mod]
        rw [h1, hcount] at hcontra
        have h2 : j ≡ stream.length + i [MOD B] := hcontra
        have h3 : B ∣ stream.length + i - j :=
          (Nat.modEq_iff_dvd' (by omega)).mp h2
        have h4 : B ≤ stream.length + i - j := Nat.le_of_dvd (by omega) h3
        omega
      rw [huntouched, hbuf j hjold (by omega), List.getD_append _ _ _ _ hjold]
    · -- a byte of the newly accepted chunk
      have hi : j - stream.length < n := by omega
      have h1 : j % B = (dev.indx + (j - stream.length)) % B := by
        rw [hindx, Nat.mod_add_mod, hcount]
        congr 1
        omega
      rw [h1, hspec.2.1 (j - stream.length) hi,
        List.getD_append_right _ _ _ _ (by omega),
        getD_take_lt data n (j - stream.length) hi (by omega)]

/-- A successful read: with a non-empty backlog of at most `B` bytes, the
call returns `min req (count - offset)` bytes, namely the buffer cells at
`(offset + i) % B`, and the cursor advances by exactly that amount. -/
lemma fanout_read_ok (B : Nat) (dev : Fo) (offset req : Nat) (hB : 0 < B)
    (hindx : dev.indx = dev.count % B) (hlt : offset < dev.count)
    (hwin : dev.count ≤ offset + B) :
    fanout_read B dev offset req false =
      (ReadResult.ok (min req (dev.count - offset)),
       (List.range (min req (dev.count - offset))).map
         (fun i => dev.buf ((offset + i) % B)),
       offset + min req (dev.count - offset)) := by
  have hne : ¬(offset = dev.count) := by omega
  have hover : ¬((B : Int) < (dev.count : Int) - (offset : Int) ∨
      (dev.count : Int) - (offset : Int) < 0) := by omega
  have hbytes := readLoopF_bytes B dev.indx dev.count dev.buf hB hindx
    (min req (dev.count - offset)) offset (min req (dev.count - offset))
    le_rfl (by omega) (by omega) (by omega)
  simp only [fanout_read, if_neg hne, if_neg hover, Bool.false_eq_true, if_false]
  rw [show readLoop B dev.indx dev.count offset (min req (dev.count - offset)) =
      readLoopF B dev.indx dev.count (min req (dev.count - offset)) offset
        (min req (dev.count - offset)) from rfl]
  rw [hbytes.1, hbytes.2]

/-- Under the stream invariant the bytes a successful read returns are the
slice of the abstract stream starting at the cursor. -/
lemma fanout_read_stream (B : Nat) (dev : Fo) (stream : List Nat)
    (offset req : Nat) (hB : 0 < B) (hm : bufMatches B dev stream)
    (hlt : offset < dev.count) (hwin : dev.count ≤ offset + B) :
    fanout_read B dev offset req false =
      (ReadResult.ok (min req (dev.count - offset)),
       (stream.drop offset).take (min req (dev.count - offset)),
       offset + min req (dev.count - offset)) := by
  obtain ⟨hcount, hindx, hbuf⟩ := hm
  rw [fanout_read_ok B dev offset req hB hindx hlt hwin]
  congr 1
  congr 1
  set n := min req (dev.count - offset) with hn
  have hlen1 : ((List.range n).map (fun i => dev.buf ((offset + i) % B))).length = n := by
    simp
  have hlen2 : ((stream.drop offset).take n).length = n := by
    simp
    omega
  apply List.ext_getElem (by rw [hlen1, hlen2])
  intro i h1 h2
  rw [hlen1] at h1
  simp only [List.getElem_map, List.getElem_range, List.getElem_take, List.getElem_drop]
  have hj : offset + i < stream.length := by omega
  have hb := hbuf (offset + i) hj (by omega)
  rw [List.getD_eq_getElem stream 0 hj] at hb
  exact hb

/-! ### Sequential traces of writer and reader calls

A trace interleaves `fanout_write` calls of the single writer with
`fanout_read` calls of one cursor that was attached before any append
(`offset = count = 0` initially).  A read finding no new data blocks in the
C code; in the sequential trace it simply contributes nothing and is retried
later. -/

/-- One driver call in a trace: an append offering `data`, or a read of at
most `maxLen` bytes by the cursor. -/
inductive Op where
  | append (data : List Nat)
  | read (maxLen : Nat)

/-- State of one channel together with the one cursor being traced:
device, cursor position, and all bytes the reads have returned so far. -/
structure SysState where
  dev : Fo
  offset : Nat
  readOut : List Nat

/-- Effect of one call on the channel-plus-cursor state.  A blocked,
interrupted or overrun read leaves everything unchanged (the C code touches
neither the device nor `f_pos` on those paths). -/
def step (B : Nat) (s : SysState) : Op → SysState
  | Op.append data => ⟨(fanout_write B s.dev data).1, s.offset, s.readOut⟩
  | Op.read m =>
    match fanout_read B s.dev s.offset m false with
    | (ReadResult.ok _, bytes, off2) => ⟨s.dev, off2, s.readOut ++ bytes⟩
    | _ => s

/-- Run a whole trace. -/
def runTrace (B : Nat) (s : SysState) : List Op → SysState
  | [] => s
  | op :: tr => runTrace B (step B s op) tr

/-- Admissibility of a trace: every append is small enough to be accepted in
full (`≤ B / 4`, the writer's per-call cap), and at the moment of every read
the cursor has not overrun (backlog at most `B`). -/
def traceOk (B : Nat) (s : SysState) : List Op → Bool
  | [] => true
  | Op.append data :: tr =>
    decide (data.length ≤ B / 4) && traceOk B (step B s (Op.append data)) tr
  | Op.read m :: tr =>
    decide (s.dev.count ≤ s.offset + B) && traceOk B (step B s (Op.read m)) tr

/-- Concatenation of the byte sequences offered by the appends of a trace. -/
def appendData : List Op → List Nat
  | [] => []
  | Op.append d :: tr => d ++ appendData tr
  | Op.read _ :: tr => appendData tr

/-- Initial channel-plus-cursor state: freshly initialised device (buffer
contents arbitrary) and a cursor attached before any append. -/
def initState (g : Nat → Nat) : SysState := ⟨initFo g, 0, []⟩

/-- Main trace invariant: running an admissible trace preserves the stream
invariant, keeps the cursor inside the stream, and keeps `readOut` equal to
the prefix of the abstract stream up to the cursor. -/
lemma runTrace_inv (B : Nat) (hB : 0 < B) :
    ∀ (tr : List Op) (s : SysState) (stream : List Nat),
      bufMatches B s.dev stream → s.offset ≤ s.dev.count →
      s.readOut = stream.take s.offset → traceOk B s tr = true →
      bufMatches B (runTrace B s tr).dev (stream ++ appendData tr) ∧
      (runTrace B s tr).offset ≤ (runTrace B s tr).dev.count ∧
      (runTrace B s tr).readOut = (stream ++ appendData tr).take (runTrace B s tr).offset := by
  intro tr
  induction tr with
  | nil =>
    intro s stream hm hoff hout _
    exact ⟨by simpa [runTrace, appendData] using hm, hoff, by
      simpa [runTrace, appendData] using hout⟩
  | cons op tr ih =>
    intro s stream hm hoff hout hokk
    cases op with
    | append data =>
      rw [traceOk, Bool.and_eq_true, decide_eq_true_eq] at hokk
      obtain ⟨hsmall, hok2⟩ := hokk
      have hn : min data.length (B / 4) = data.length := by omega
      have hm2 := fanout_write_matches B s.dev stream data hB hm
      rw [hn, List.take_length] at hm2
      have hcount2 : (step B s (Op.append data)).dev.count = s.dev.count + data.length := by
        simp [step, fanout_write, hn]
      have hoffstep : (step B s (Op.append data)).offset = s.offset := by
        simp [step]
      have hsl : s.dev.count = stream.length := hm.1
      have hres := ih (step B s (Op.append data)) (stream ++ data) hm2
        (by rw [hcount2, hoffstep]; omega)
        (by
          rw [hoffstep]
          show s.readOut = (stream ++ data).take s.offset
          rw [List.take_append_of_le_length (by omega : s.offset ≤ stream.length)]
          exact hout) hok2
      simpa [runTrace, appendData, List.append_assoc] using hres
    | read m =>
      rw [traceOk, Bool.and_eq_true, decide_eq_true_eq] at hokk
      obtain ⟨hwin, hok2⟩ := hokk
      by_cases hidle : s.offset = s.dev.count
      · -- no new data: the read blocks; the trace state is unchanged
        have hstep : step B s (Op.read m) = s := by
          simp [step, fanout_read, hidle]
        have hres := ih (step B s (Op.read m)) stream
          (by rw [hstep]; exact hm) (by rw [hstep]; exact hoff)
          (by rw [hstep]; exact hout) hok2
        simpa [runTrace, appendData] using hres
      · -- data available: a successful read of the next slice
        have hlt : s.offset < s.dev.count := by omega
        have hread := fanout_read_stream B s.dev stream s.offset m hB hm hlt (by omega)
        have hstep : step B s (Op.read m) =
            ⟨s.dev, s.offset + min m (s.dev.count - s.offset),
             s.readOut ++ (stream.drop s.offset).take (min m (s.dev.count - s.offset))⟩ := by
          simp [step, hread]
        have hcount : s.dev.count = stream.length := hm.1
        have hres := ih (step B s (Op.read m)) stream
          (by rw [hstep]; exact hm)
          (by rw [hstep]; show s.offset + min m (s.dev.count - s.offset) ≤ s.dev.count; omega)
          (by
            rw [hstep]
            show s.readOut ++ (stream.drop s.offset).take (min m (s.dev.count - s.offset)) =
              stream.take (s.offset + min m (s.dev.count - s.offset))
            rw [List.take_add, hout]) hok2
        simpa [runTrace, appendData] using hres

/-! ### Claim theorems -/

/-- C1: for every sequence of appends and a cursor attached before any
append, with every append chunk accepted in full (length at most `B / 4`,
the writer contract) and no overrun occurring at any read, the
concatenation of the byte sequences returned by repeated reads — once the
cursor has drained the stream — equals the concatenation of the appended
sequences, in order, regardless of how the writer chunked the appends. -/
theorem fanout_trace_ordering (B : Nat) (g : Nat → Nat) (tr : List Op)
    (hB : 0 < B) (hok : traceOk B (initState g) tr = true)
    (hdrained : (runTrace B (initState g) tr).offset =
      (runTrace B (initState g) tr).dev.count) :
    (runTrace B (initState g) tr).readOut = appendData tr := by
  have hm0 : bufMatches B (initState g).dev [] := by
    refine ⟨rfl, (Nat.zero_mod B).symm, ?_⟩
    intro j hj _
    simp at hj
  have hres := runTrace_inv B hB tr (initState g) [] hm0 le_rfl rfl hok
  have hcount : (runTrace B (initState g) tr).dev.count = (appendData tr).length := by
    simpa using hres.1.1
  rw [hres.2.2]
  simp only [List.nil_append]
  rw [hdrained, hcount, List.take_length]

/-- Witness for C1 on a concrete interleaved trace with `B = 16`. -/
theorem fanout_trace_ordering_witness :
    traceOk 16 (initState (fun _ => 0))
      [Op.append [1, 2, 3], Op.read 5, Op.append [9, 9], Op.read 1, Op.read 9] = true ∧
    (runTrace 16 (initState (fun _ => 0))
      [Op.append [1, 2, 3], Op.read 5, Op.append [9, 9], Op.read 1, Op.read 9]).readOut =
      appendData [Op.append [1, 2, 3], Op.read 5, Op.append [9, 9], Op.read 1, Op.read 9] :=
  ⟨by decide,
   fanout_trace_ordering 16 (fun _ => 0)
     [Op.append [1, 2, 3], Op.read 5, Op.append [9, 9], Op.read 1, Op.read 9]
     (by decide) (by decide) (by decide)⟩

/-- C2: an append offering `data` accepts and returns exactly
`min data.length (B / 4)` bytes, copies exactly those bytes into the ring
buffer (every other cell is untouched), and advances `count` by exactly that
amount. -/
theorem fanout_write_quarter_cap (B : Nat) (dev : Fo) (data : List Nat)
    (hidx : dev.indx < B) :
    (fanout_write B dev data).2 = min data.length (B / 4) ∧
    (fanout_write B dev data).1.count = dev.count + min data.length (B / 4) ∧
    (∀ i, i < min data.length (B / 4) →
      (fanout_write B dev data).1.buf ((dev.indx + i) % B) = data.getD i 0) ∧
    (∀ k, (∀ i, i < min data.length (B / 4) → k ≠ (dev.indx + i) % B) →
      (fanout_write B dev data).1.buf k = dev.buf k) := by
  have hspec := writeLoopF_spec B (min data.length (B / 4)) dev.buf dev.indx data
    (min data.length (B / 4)) hidx le_rfl (by omega)
    (le_trans (by omega) (Nat.div_le_self B 4))
  exact ⟨rfl, rfl, hspec.2.1, hspec.2.2⟩

/-- Witness for C2 at `B = 8`, write index `6`, offering three bytes of
which `8 / 4 = 2` are accepted. -/
theorem fanout_write_quarter_cap_witness :
    6 < 8 ∧
    ((fanout_write 8 (Fo.mk (fun _ => 0) 6 10) [1, 2, 3]).2 = min 3 (8 / 4) ∧
     (fanout_write 8 (Fo.mk (fun _ => 0) 6 10) [1, 2, 3]).1.count = 10 + min 3 (8 / 4) ∧
     (∀ i, i < min 3 (8 / 4) →
       (fanout_write 8 (Fo.mk (fun _ => 0) 6 10) [1, 2, 3]).1.buf ((6 + i) % 8) =
         [1, 2, 3].getD i 0) ∧
     (∀ k, (∀ i, i < min 3 (8 / 4) → k ≠ (6 + i) % 8) →
       (fanout_write 8 (Fo.mk (fun _ => 0) 6 10) [1, 2, 3]).1.buf k =
         (Fo.mk (fun _ => 0) 6 10).buf k)) :=
  ⟨by decide, fanout_write_quarter_cap 8 (Fo.mk (fun _ => 0) 6 10) [1, 2, 3] (by decide)⟩

/-- C3: a read whose backlog `count - offset` exceeds `B` fails with
overrun (`-EPIPE`), returns no bytes, and leaves the cursor unchanged. -/
theorem fanout_read_overrun_behind (B : Nat) (dev : Fo) (offset req : Nat)
    (h : B + offset < dev.count) :
    fanout_read B dev offset req false = (ReadResult.overrun, [], offset) := by
  have h1 : ¬(offset = dev.count) := by omega
  have h2 : (B : Int) < (dev.count : Int) - (offset : Int) ∨
      (dev.count : Int) - (offset : Int) < 0 := Or.inl (by omega)
  simp only [fanout_read, if_neg h1, if_pos h2, Bool.false_eq_true, if_false]

/-- Witness for C3: backlog `20` exceeds `B = 8`. -/
theorem fanout_read_overrun_behind_witness :
    8 + 0 < 20 ∧
    fanout_read 8 (Fo.mk (fun _ => 0) 2 20) 0 6 false = (ReadResult.overrun, [], 0) :=
  ⟨by decide, fanout_read_overrun_behind 8 (Fo.mk (fun _ => 0) 2 20) 0 6 (by decide)⟩

/-- C10: when the cursor is ahead of the writer (`offset > count`, making
the signed backlog negative) the read fails with the same overrun error
(`-EPIPE`) as the fell-behind case, returns no bytes, and leaves the cursor
unchanged — the code folds `xfer < 0` into the `xfer > buffersize` check. -/
theorem fanout_read_overrun_ahead (B : Nat) (dev : Fo) (offset req : Nat)
    (h : dev.count < offset) :
    fanout_read B dev offset req false = (ReadResult.overrun, [], offset) := by
  have h1 : ¬(offset = dev.count) := by omega
  have h2 : (B : Int) < (dev.count : Int) - (offset : Int) ∨
      (dev.count : Int) - (offset : Int) < 0 := Or.inr (by omega)
  simp only [fanout_read, if_neg h1, if_pos h2, Bool.false_eq_true, if_false]

/-- Witness for C10: cursor at `5`, writer counter at `1`. -/
theorem fanout_read_overrun_ahead_witness :
    1 < 5 ∧
    fanout_read 8 (Fo.mk (fun _ => 0) 1 1) 5 6 false = (ReadResult.overrun, [], 5) :=
  ⟨by decide, fanout_read_overrun_ahead 8 (Fo.mk (fun _ => 0) 1 1) 5 6 (by decide)⟩

/-- C6: a read hit by a cancellation signal (while waiting for the lock or
blocked waiting for data) returns `-ERESTARTSYS`, delivers no bytes, and
leaves the cursor exactly where it was — the C paths return before mutating
any state, so a retry resumes at the same position (the device itself is
never written by `fanout_read`). -/
theorem fanout_read_interrupted (B : Nat) (dev : Fo) (offset req : Nat) :
    fanout_read B dev offset req true = (ReadResult.interrupted, [], offset) := rfl

/-- C4 (code bug evidence): at a state with unread data (`f_pos = 0`,
`count = 1`) the poll mask is reassigned to `POLLIN ||| POLLRDNORM`,
clearing the writable bits `POLLOUT` and `POLLWRNORM` even though the
buffer is always writable; only at `f_pos = count` are the writable bits
reported. -/
theorem fanout_poll_drops_writable :
    fanout_poll 0 1 = POLLIN ||| POLLRDNORM ∧
    fanout_poll 0 1 &&& POLLOUT = 0 ∧
    fanout_poll 0 1 &&& POLLWRNORM = 0 ∧
    fanout_poll 0 0 = POLLOUT ||| POLLWRNORM := by
  refine ⟨rfl, by decide, by decide, rfl⟩

/-- C5 counterexample: a read with request size `0` and a non-empty backlog
(`available = 1`, within capacity `4`) returns success with zero bytes,
refuting the claim that a successful read under `0 < available ≤ capacity`
returns at least one byte. -/
theorem fanout_read_zero_length_success :
    0 < (Fo.mk (fun _ => 7) 1 1).count - 0 ∧
    (Fo.mk (fun _ => 7) 1 1).count - 0 ≤ 4 ∧
    fanout_read 4 (Fo.mk (fun _ => 7) 1 1) 0 0 false = (ReadResult.ok 0, [], 0) ∧
    ¬(1 ≤ (fanout_read 4 (Fo.mk (fun _ => 7) 1 1) 0 0 false).2.1.length) := by
  exact ⟨by decide, by decide, by decide, by decide⟩

/-- C5 (amended): a successful read under `0 < available ≤ B` with a
positive request returns exactly `min req available` bytes — at least one —
namely the next slice of the abstract stream at the cursor, and advances the
cursor by exactly that amount (so nothing is repeated or skipped between
successive reads). -/
theorem fanout_read_success_window (B : Nat) (dev : Fo) (stream : List Nat)
    (offset req : Nat) (hB : 0 < B) (hm : bufMatches B dev stream)
    (h0 : offset < dev.count) (hcap : dev.count ≤ offset + B) (hreq : 1 ≤ req) :
    fanout_read B dev offset req false =
      (ReadResult.ok (min req (dev.count - offset)),
       (stream.drop offset).take (min req (dev.count - offset)),
       offset + min req (dev.count - offset)) ∧
    1 ≤ min req (dev.count - offset) ∧
    ((stream.drop offset).take (min req (dev.count - offset))).length =
      min req (dev.count - offset) := by
  refine ⟨fanout_read_stream B dev stream offset req hB hm h0 hcap, by omega, ?_⟩
  have hcount : dev.count = stream.length := hm.1
  simp only [List.length_take, List.length_drop]
  omega

/-- Witness for C5 (amended) at `B = 4` with stream `[10, 20, 30]`. -/
theorem fanout_read_success_window_witness :
    bufMatches 4 (Fo.mk (fun k => [10, 20, 30, 99].getD k 0) 3 3) [10, 20, 30] ∧
    (fanout_read 4 (Fo.mk (fun k => [10, 20, 30, 99].getD k 0) 3 3) 1 2 false =
      (ReadResult.ok (min 2 (3 - 1)), ([10, 20, 30].drop 1).take (min 2 (3 - 1)),
       1 + min 2 (3 - 1)) ∧
     1 ≤ min 2 (3 - 1) ∧
     (([10, 20, 30].drop 1).take (min 2 (3 - 1))).length = min 2 (3 - 1)) :=
  ⟨by decide,
   fanout_read_success_window 4 (Fo.mk (fun k => [10, 20, 30, 99].getD k 0) 3 3)
     [10, 20, 30] 1 2 (by decide) (by decide) (by decide) (by decide) (by decide)⟩

/-- C7: on a device without a buffer, an open whose allocation fails returns
`-ENOMEM` and leaves the device unchanged (a later open may still succeed);
every other open succeeds and the new handle starts at
`f_pos = total_written`, so a fresh reader sees only data appended after the
attach. -/
theorem fanout_open_attach (dev : FoDev) (g : Nat → Nat) :
    (dev.buf = none → fanout_open dev false false g = (OpenResult.enomem, dev)) ∧
    (∀ aok : Bool, (dev.buf = none → aok = true) →
      (fanout_open dev false aok g).1 = OpenResult.ok dev.count) := by
  constructor
  · intro hnone
    simp [fanout_open, hnone]
  · intro aok haok
    cases hb : dev.buf with
    | none =>
      have ha : aok = true := haok hb
      subst ha
      simp [fanout_open, hb]
    | some b =>
      simp [fanout_open, hb]

/-- Witness for C7 on a bufferless device with `count = 5`. -/
theorem fanout_open_attach_witness :
    fanout_open (FoDev.mk none 0 5) false false (fun _ => 0) =
      (OpenResult.enomem, FoDev.mk none 0 5) ∧
    (fanout_open (FoDev.mk none 0 5) false true (fun _ => 0)).1 = OpenResult.ok 5 :=
  ⟨(fanout_open_attach (FoDev.mk none 0 5) (fun _ => 0)).1 rfl,
   (fanout_open_attach (FoDev.mk none 0 5) (fun _ => 0)).2 true (fun _ => rfl)⟩

/-- C8: under the validated precondition `0 ≤ count - offset ≤ B`, the read
copy loop produces at most two contiguous segments, every accessed raw index
lies in `[0, B)` (each segment is non-empty with `start + len ≤ B`), and the
segment lengths sum to exactly `n = min req (count - offset)`. -/
theorem fanout_read_window_safety (B indx count offset req : Nat)
    (hindx : indx < B) (hoff : offset ≤ count) (hwin : count ≤ offset + B) :
    (readLoop B indx count offset (min req (count - offset))).2 =
      offset + min req (count - offset) ∧
    (readLoop B indx count offset (min req (count - offset))).1.length ≤ 2 ∧
    (∀ sg ∈ (readLoop B indx count offset (min req (count - offset))).1,
      0 < sg.2 ∧ sg.1 + sg.2 ≤ B) ∧
    ((readLoop B indx count offset (min req (count - offset))).1.map
      (fun sg => sg.2)).sum = min req (count - offset) :=
  readLoopF_segs B indx count (min req (count - offset)) offset
    (min req (count - offset)) le_rfl hindx hoff (by omega) (by omega)

/-- Witness for C8 on a wrapping window: `B = 8`, `indx = 2`, `count = 10`,
cursor at `4`, request `6` — two segments `(4, 4)` and `(0, 2)`. -/
theorem fanout_read_window_safety_witness :
    2 < 8 ∧ 4 ≤ 10 ∧ 10 ≤ 4 + 8 ∧
    ((readLoop 8 2 10 4 (min 6 (10 - 4))).2 = 4 + min 6 (10 - 4) ∧
     (readLoop 8 2 10 4 (min 6 (10 - 4))).1.length ≤ 2 ∧
     (∀ sg ∈ (readLoop 8 2 10 4 (min 6 (10 - 4))).1, 0 < sg.2 ∧ sg.1 + sg.2 ≤ 8) ∧
     ((readLoop 8 2 10 4 (min 6 (10 - 4))).1.map (fun sg => sg.2)).sum =
       min 6 (10 - 4)) :=
  ⟨by decide, by decide, by decide,
   fanout_read_window_safety 8 2 10 4 6 (by decide) (by decide) (by decide)⟩

/-- C9: the write index is a valid index into the storage array: it is `0`
(hence `< B`) after module initialisation, and every append — including
appends whose copy is split at the physical buffer boundary — keeps it in
`[0, B)`. -/
theorem fanout_write_index_bound (B : Nat) (g : Nat → Nat) (dev : Fo)
    (data : List Nat) (hB : 0 < B) (hidx : dev.indx < B) :
    (initFo g).indx < B ∧ (fanout_write B dev data).1.indx < B := by
  constructor
  · exact hB
  · have hspec := writeLoopF_spec B (min data.length (B / 4)) dev.buf dev.indx data
      (min data.length (B / 4)) hidx le_rfl (by omega)
      (le_trans (by omega) (Nat.div_le_self B 4))
    have h2 : (fanout_write B dev data).1.indx =
        (dev.indx + min data.length (B / 4)) % B := hspec.1
    rw [h2]
    exact Nat.mod_lt _ hB

/-- Witness for C9 with a boundary-splitting append: `B = 8`, `indx = 7`,
two accepted bytes wrap the index to `1`. -/
theorem fanout_write_index_bound_witness :
    0 < 8 ∧ 7 < 8 ∧
    ((initFo (fun _ => 0)).indx < 8 ∧
     (fanout_write 8 (Fo.mk (fun _ => 0) 7 3) [1, 2, 3]).1.indx < 8) :=
  ⟨by decide, by decide,
   fanout_write_index_bound 8 (fun _ => 0) (Fo.mk (fun _ => 0) 7 3) [1, 2, 3]
     (by decide) (by decide)⟩

end Fanout
